import Mathlib

/-!
# ftpic: a one-dimensional Particle-in-Fourier plasma kernel

Shallow embedding of `src/ftpic.c` and of the initialisers of `src/common.c`.

* `double` values are elements of an arbitrary linearly ordered field `K`
  (exact arithmetic); every definition is computable and can be run at `K = ℚ`.
* A C array is a total map `Nat → _` from index to content, so that "every
  prior content of a buffer" is a universally quantified map.
* A `for` loop is `forLoop lo hi body`, which runs `body lo`, `body (lo+1)`, ...
  in this order on an explicit state.
* The global buffers (`zcBuf`, `xpBuf`, `fpBuf`, `phikBuf`, `ekBuf`, `epBuf`) are
  passed in and returned explicitly.
* The nonuniform transforms `uf1t_` and `uf1a_` are external routines: the functions
  that call them take them as parameters, and `uf1tExact`, `uf1aExact` are their
  exact sums.
-/

namespace Ftpic

/-! ## Data model -/

/-- An `fftw_complex`: `c[0]` is the real part and `c[1]` the imaginary part. -/
structure Cplx (K : Type) where
  re : K
  im : K
deriving DecidableEq, Repr

/-- The compile-time constants of `common.c` and `ftpic.c`, together with the time step. -/
structure Consts (K : Type) where
  XMAX : K
  NGRID : Nat
  PART_NUM : Nat
  PART_MASS : K
  PART_CHARGE : K
  EPS_0 : K
  DT : K
  MODELOG_MAX : Nat
  M_PI : K

/-- The values configured in the sources: `XMAX = 16.0`, `NGRID = 64`, `PART_NUM = 10000`,
`PART_MASS = 0.005`, `PART_CHARGE = -0.02`, `EPS_0 = 1.0`, `DT = 0.001` (common.c) and
`MODELOG_MAX = 64` (ftpic.c, line 12).  The value of `M_PI` is supplied by the caller. -/
def configured {K : Type} [Field K] (pi : K) : Consts K :=
  ⟨16, 64, 10000, 5 / 1000, -(2 / 100), 1, 1 / 1000, 64, pi⟩

/-- The constant `WAVE_MODE = 2` of common.c. -/
def WAVE_MODE : Nat := 2

/-- The grid spacing `DX = XMAX / NGRID`, assigned first thing in `main`. -/
def DX {K : Type} [Field K] (C : Consts K) : K := C.XMAX / (C.NGRID : K)

/-! ## Loops -/

/-- Runs `body lo`, `body (lo+1)`, ..., `body (lo+n-1)` on the state, in this order. -/
def loopFrom {σ : Type} (body : Nat → σ → σ) : Nat → Nat → σ → σ
  | _, 0, s => s
  | lo, n + 1, s => loopFrom body (lo + 1) n (body lo s)

/-- The loop `for (int j = lo; j < hi; j++) body`. -/
def forLoop {σ : Type} (lo hi : Nat) (body : Nat → σ → σ) (s : σ) : σ :=
  loopFrom body lo (hi - lo) s

/-! ## xPush -/

/-- The body of the loop of `xPush` for one particle: the new content of `x[i]`. -/
def xPushStep {K : Type} [LinearOrderedField K] (C : Consts K) (xi vi : K) : K :=
  let x1 := xi + C.DT * vi
  let x2 := if x1 < 0 then x1 + C.XMAX else x1
  if x2 ≥ C.XMAX then x2 - C.XMAX else x2

/-- The function `xPush(x, v)`: returns the array `x` after the push. -/
def xPush {K : Type} [LinearOrderedField K] (C : Consts K) (x v : Nat → K) : Nat → K :=
  forLoop 0 C.PART_NUM (fun i x => Function.update x i (xPushStep C (x i) (v i))) x

/-! ## Buffers and global state -/

/-- An array of `fftw_complex`. -/
abbrev Buf (K : Type) := Nat → Cplx K

/-- The assignment `b[j][0] = r`. -/
def setRe {K : Type} (b : Buf K) (j : Nat) (r : K) : Buf K :=
  Function.update b j ⟨r, (b j).im⟩

/-- The assignment `b[j][1] = r`. -/
def setIm {K : Type} (b : Buf K) (j : Nat) (r : K) : Buf K :=
  Function.update b j ⟨(b j).re, r⟩

/-- The global buffers of ftpic.c.  `fpBuf` holds the interleaved real and imaginary parts of
the particle weights. -/
structure Globals (K : Type) where
  zcBuf : Buf K
  xpBuf : Nat → K
  fpBuf : Nat → K
  phikBuf : Buf K
  ekBuf : Buf K
  epBuf : Buf K

/-- The external routine `uf1t_(nc, zc, np, xp, fp, isign, order)`, as the map from
`nc np xp fp isign order` to the content of `zc` on return. -/
abbrev Uf1t (K : Type) := Nat → Nat → (Nat → K) → (Nat → K) → Int → Nat → Buf K

/-- The external routine `uf1a_(nc, ek, np, xp, ep, isign, order)`, as the map from
`nc ek np xp isign order` to the content of `ep` on return. -/
abbrev Uf1a (K : Type) := Nat → Buf K → Nat → (Nat → K) → Int → Nat → Buf K

/-- Modelled from the spec: the phase `2*pi*m*x/L` of the mode stored at index `t` of a
length-`nc` spectrum in the centred layout (`m = t - nc/2`), at the normalised position
`xp = x/L`.  The transforms are external (USFFT), not part of the sources. -/
def phase {K : Type} [Field K] (pi : K) (nc t : Nat) (xp : K) : K :=
  2 * pi * ((t : K) - ((nc / 2 : Nat) : K)) * xp

/-- Modelled from the spec: the forward nonuniform transform `uf1t_` taken as its exact sum,
`zc[t] = sum_i fp_i * exp(isign * i * phase)`, with `cosF` and `sinF` for cosine and sine. -/
def uf1tExact {K : Type} [Field K] (cosF sinF : K → K) (pi : K) : Uf1t K :=
  fun nc np xp fp isign _ t =>
    ⟨∑ i in Finset.range np, (fp (2 * i) * cosF (phase pi nc t (xp i))
        - (isign : K) * fp (2 * i + 1) * sinF (phase pi nc t (xp i))),
     ∑ i in Finset.range np, (fp (2 * i + 1) * cosF (phase pi nc t (xp i))
        + (isign : K) * fp (2 * i) * sinF (phase pi nc t (xp i)))⟩

/-- Modelled from the spec: the inverse nonuniform transform `uf1a_` taken as its exact sum,
`ep[i] = sum_t ek[t] * exp(isign * i * phase)` for `i < np`, with `cosF` and `sinF` for cosine
and sine.  The entries from `np` on are not read by the caller and are given as `0`. -/
def uf1aExact {K : Type} [Field K] (cosF sinF : K → K) (pi : K) : Uf1a K :=
  fun nc ek np xp isign _ i =>
    if i < np then
      ⟨∑ t in Finset.range nc, ((ek t).re * cosF (phase pi nc t (xp i))
          - (isign : K) * (ek t).im * sinF (phase pi nc t (xp i))),
       ∑ t in Finset.range nc, ((ek t).im * cosF (phase pi nc t (xp i))
          + (isign : K) * (ek t).re * sinF (phase pi nc t (xp i)))⟩
    else ⟨0, 0⟩

/-- The unit weights `1 + 0i` that `main` stores in `fpBuf` (lines 158-161). -/
def unitWeights {K : Type} [Field K] (C : Consts K) (fpBuf : Nat → K) : Nat → K :=
  forLoop 0 C.PART_NUM (fun m fp => Function.update (Function.update fp (2 * m) 1) (2 * m + 1) 0)
    fpBuf

/-! ## deposit -/

/-- The loop `xpBuf[m] = x[m] / XMAX` of `deposit` and `vHalfPush`. -/
def xpFill {K : Type} [Field K] (C : Consts K) (x xpBuf : Nat → K) : Nat → K :=
  forLoop 0 C.PART_NUM (fun m xp => Function.update xp m (x m / C.XMAX)) xpBuf

/-- The body of the loop of `deposit` over the modes `j`. -/
def depositBody {K : Type} [Field K] (C : Consts K) (zcBuf sk : Buf K) (j : Nat)
    (rhok : Buf K) : Buf K :=
  let real := C.PART_CHARGE * (zcBuf (C.NGRID / 2 + j)).re / (C.NGRID : K)
  let imag := C.PART_CHARGE * (zcBuf (C.NGRID / 2 + j)).im / (C.NGRID : K)
  let rhok1 := setRe rhok j (real * (sk j).re - imag * (sk j).im)
  setIm rhok1 j (real * (sk j).im + imag * (sk j).re)

/-- The part of `deposit` that follows the call of `uf1t_`: the loop over the modes and the
final statement `rhok[0][0] = 0`. -/
def depositModes {K : Type} [Field K] (C : Consts K) (zcBuf sk rhok : Buf K) : Buf K :=
  setRe (forLoop 0 (C.NGRID / 2) (depositBody C zcBuf sk) rhok) 0 0

/-- The function `deposit(x, rhok, sk)`: returns `rhok` and the global buffers on return. -/
def deposit {K : Type} [Field K] (C : Consts K) (uf1t : Uf1t K) (x : Nat → K)
    (rhok sk : Buf K) (g : Globals K) : Buf K × Globals K :=
  let xp := xpFill C x g.xpBuf
  let zc := uf1t C.NGRID C.PART_NUM xp g.fpBuf (-1) 5
  (depositModes C zc sk rhok, { g with xpBuf := xp, zcBuf := zc })

/-! ## fields -/

/-- The wavenumber `k = 2 * M_PI * j / XMAX` of mode `j`. -/
def waveNumber {K : Type} [Field K] (C : Consts K) (j : Nat) : K :=
  2 * C.M_PI * (j : K) / C.XMAX

/-- The body of the first loop of `fields`, on the pair `(phikBuf, ekBuf)`. -/
def fieldsBody {K : Type} [Field K] (C : Consts K) (rhok sk : Buf K) (j : Nat)
    (s : Buf K × Buf K) : Buf K × Buf K :=
  let k := waveNumber C j
  let phikRe := (rhok j).re / (k * k * C.EPS_0)
  let phikIm := (rhok j).im / (k * k * C.EPS_0)
  let phik1 := setRe s.1 j (((sk j).re * phikRe - (sk j).im * phikIm) * DX C)
  let phik2 := setIm phik1 j (((sk j).re * phikIm + (sk j).im * phikRe) * DX C)
  let ek1 := setRe s.2 (C.NGRID / 2 + j) (k * (phik2 j).im)
  let ek2 := setIm ek1 (C.NGRID / 2 + j) (-k * (phik2 j).re)
  (phik2, ek2)

/-- The statements `phikBuf[0] = 0` and the first loop of `fields`: the pair
`(phikBuf, ekBuf)` after the loop. -/
def fieldsSolve {K : Type} [Field K] (C : Consts K) (rhok sk : Buf K) (g : Globals K) :
    Buf K × Buf K :=
  forLoop 1 (C.NGRID / 2) (fieldsBody C rhok sk) (setIm (setRe g.phikBuf 0 0) 0 0, g.ekBuf)

/-- The accumulation `pot += phikBuf[j][0] * rhok[j][0] + phikBuf[j][1] * rhok[j][1]`
over `j = 1 .. NGRID/2 - 1`. -/
def potentialSum {K : Type} [Field K] (C : Consts K) (rhok phik : Buf K) : K :=
  forLoop 1 (C.NGRID / 2)
    (fun j pot => pot + ((phik j).re * (rhok j).re + (phik j).im * (rhok j).im)) 0

/-- The indices `j` at which `fields` reads `phikBuf[j]` and `rhok[j]` when it writes a
mode-log row: the loop `for (int j = 1; j <= MODELOG_MAX; j++)`. -/
def modeLogReads {K : Type} (C : Consts K) : List Nat :=
  (List.range C.MODELOG_MAX).map (fun t => t + 1)

/-- The values of one mode-log row. -/
def modeLogRow {K : Type} [Field K] (C : Consts K) (rhok phik : Buf K) : List K :=
  (modeLogReads C).map (fun j => (phik j).re * (rhok j).re + (phik j).im * (rhok j).im)

/-- The number of `fftw_complex` entries allocated for `phikBuf` in `main` (line 130). -/
def phikBufLen {K : Type} (C : Consts K) : Nat := C.NGRID / 2

/-- The function `fields(rhok, sk, phi, &potential)` with a non-null `potential`: returns the
potential energy and the global buffers on return.  The inverse FFT that fills `phi` only
produces the plotted potential and is left out. -/
def fields {K : Type} [Field K] (C : Consts K) (rhok sk : Buf K) (g : Globals K) :
    K × Globals K :=
  let s := fieldsSolve C rhok sk g
  (potentialSum C rhok s.1 * C.XMAX, { g with phikBuf := s.1, ekBuf := s.2 })

/-! ## vHalfPush and the diagnostics -/

/-- The body of the loop of `vHalfPush` that mirrors the upper half of `ekBuf`. -/
def hermitianBody {K : Type} [Field K] (C : Consts K) (j : Nat) (ek : Buf K) : Buf K :=
  let ek1 := setRe ek (C.NGRID / 2 - j) (ek (j + C.NGRID / 2)).re
  setIm ek1 (C.NGRID / 2 - j) (-(ek1 (j + C.NGRID / 2)).im)

/-- The spectrum that `vHalfPush` passes to `uf1a_`: `ekBuf[0] = 0`, then the mirror loop. -/
def hermitianFill {K : Type} [Field K] (C : Consts K) (ekBuf : Buf K) : Buf K :=
  forLoop 0 (C.NGRID / 2) (hermitianBody C) (setIm (setRe ekBuf 0 0) 0 0)

/-- The velocity update of `vHalfPush` for particle `m`, given the interpolated field `ePart`. -/
def kick {K : Type} [Field K] (C : Consts K) (forward : Int) (vm ePart : K) : K :=
  if forward ≠ 0 then vm + C.DT / 2 * (C.PART_CHARGE / C.PART_MASS) * ePart
  else vm - C.DT / 2 * (C.PART_CHARGE / C.PART_MASS) * ePart

/-- The function `vHalfPush(x, v, forward)`: returns `v` and the global buffers on return. -/
def vHalfPush {K : Type} [Field K] (C : Consts K) (uf1a : Uf1a K) (x v : Nat → K)
    (forward : Int) (g : Globals K) : (Nat → K) × Globals K :=
  let ek := hermitianFill C g.ekBuf
  let xp := xpFill C x g.xpBuf
  let ep := uf1a C.NGRID ek C.PART_NUM xp 1 5
  (forLoop 0 C.PART_NUM (fun m v => Function.update v m (kick C forward (v m) (ep m).re)) v,
    { g with ekBuf := ek, xpBuf := xp, epBuf := ep })

/-- The function `momentum(v)`. -/
def momentum {K : Type} [Field K] (C : Consts K) (v : Nat → K) : K :=
  forLoop 0 C.PART_NUM (fun i p => p + C.PART_MASS * v i) 0

/-- One kick as `main` runs it: `deposit`, then `fields`, then `vHalfPush`.  Returns the
velocities after the kick. -/
def depositFieldsKick {K : Type} [Field K] (C : Consts K) (uf1t : Uf1t K) (uf1a : Uf1a K)
    (x v : Nat → K) (rhok sk : Buf K) (forward : Int) (g : Globals K) : Nat → K :=
  let d := deposit C uf1t x rhok sk g
  let f := fields C d.1 sk d.2
  (vHalfPush C uf1a x v forward f.2).1

/-! ## The initialisers of common.c -/

/-- The positions written by `init2Stream`: `x[i] = i * XMAX / PART_NUM`.  The velocities are
random (`rand()`) and are left out. -/
def init2Stream {K : Type} [Field K] (C : Consts K) (x : Nat → K) : Nat → K :=
  forLoop 0 C.PART_NUM (fun i x => Function.update x i ((i : K) * C.XMAX / (C.PART_NUM : K))) x

/-- The two position statements of `initStanding` for particle `i`, with `ampl = 0.3` and
`cosF` for the cosine.  The velocities are left out. -/
def initStandingStep {K : Type} [Field K] (C : Consts K) (cosF : K → K) (i : Nat) : K :=
  let ampl : K := 3 / 10
  let x0 := (i : K) * C.XMAX / (C.PART_NUM : K)
  x0 + ampl * C.XMAX / (2 * C.M_PI * (WAVE_MODE : K))
    * cosF (2 * C.M_PI * (WAVE_MODE : K) * x0 / C.XMAX)

/-- The positions written by `initStanding`. -/
def initStanding {K : Type} [Field K] (C : Consts K) (cosF : K → K) (x : Nat → K) : Nat → K :=
  forLoop 0 C.PART_NUM (fun i x => Function.update x i (initStandingStep C cosF i)) x

/-! ## Closed forms used in the statements -/

/-- The complex conjugate. -/
def conj {K : Type} [Field K] (c : Cplx K) : Cplx K := ⟨c.re, -c.im⟩

/-- The value that `deposit` computes for `rhok[j]` inside its loop. -/
def rhokVal {K : Type} [Field K] (C : Consts K) (zcBuf sk : Buf K) (j : Nat) : Cplx K :=
  ⟨C.PART_CHARGE * (zcBuf (C.NGRID / 2 + j)).re / (C.NGRID : K) * (sk j).re
      - C.PART_CHARGE * (zcBuf (C.NGRID / 2 + j)).im / (C.NGRID : K) * (sk j).im,
   C.PART_CHARGE * (zcBuf (C.NGRID / 2 + j)).re / (C.NGRID : K) * (sk j).im
      + C.PART_CHARGE * (zcBuf (C.NGRID / 2 + j)).im / (C.NGRID : K) * (sk j).re⟩

/-- The value that `fields` stores in `phikBuf[j]`. -/
def phikVal {K : Type} [Field K] (C : Consts K) (rhok sk : Buf K) (j : Nat) : Cplx K :=
  ⟨((sk j).re * ((rhok j).re / (waveNumber C j * waveNumber C j * C.EPS_0))
      - (sk j).im * ((rhok j).im / (waveNumber C j * waveNumber C j * C.EPS_0))) * DX C,
   ((sk j).re * ((rhok j).im / (waveNumber C j * waveNumber C j * C.EPS_0))
      + (sk j).im * ((rhok j).re / (waveNumber C j * waveNumber C j * C.EPS_0))) * DX C⟩

/-- The value that `fields` stores in `ekBuf[NGRID/2 + j]`. -/
def ekVal {K : Type} [Field K] (C : Consts K) (rhok sk : Buf K) (j : Nat) : Cplx K :=
  ⟨waveNumber C j * (phikVal C rhok sk j).im, -waveNumber C j * (phikVal C rhok sk j).re⟩

/-- The local `ePart = epBuf[m][0]` of `vHalfPush` for particle `m`, when `vHalfPush` is called
with the global buffers `g`: the real part of the transform of the spectrum it has built. -/
def ePart {K : Type} [Field K] (C : Consts K) (uf1a : Uf1a K) (x : Nat → K) (g : Globals K)
    (m : Nat) : K :=
  (uf1a C.NGRID (hermitianFill C g.ekBuf) C.PART_NUM (xpFill C x g.xpBuf) 1 5 m).re

/-- The sum over the particles of the cosine of the phase of the mode stored at index `t`. -/
def cosSum {K : Type} [Field K] (cosF : K → K) (pi : K) (nc np : Nat) (xp : Nat → K)
    (t : Nat) : K :=
  ∑ i in Finset.range np, cosF (phase pi nc t (xp i))

/-- The sum over the particles of the sine of the phase of the mode stored at index `t`. -/
def sinSum {K : Type} [Field K] (sinF : K → K) (pi : K) (nc np : Nat) (xp : Nat → K)
    (t : Nat) : K :=
  ∑ i in Finset.range np, sinF (phase pi nc t (xp i))

/-! ## Concrete inputs -/

/-- A buffer whose entries are all `0 + 0i`. -/
def zeroBuf {K : Type} [Field K] : Buf K := fun _ => ⟨0, 0⟩

/-- A buffer whose entries are all `1 + 0i`. -/
def oneBuf {K : Type} [Field K] : Buf K := fun _ => ⟨1, 0⟩

/-- A buffer that holds `c` at index `t` and `0 + 0i` elsewhere. -/
def spikeBuf {K : Type} [Field K] (t : Nat) (c : Cplx K) : Buf K :=
  fun u => if u = t then c else ⟨0, 0⟩

/-- The global buffers when `main` reaches its first call of `deposit`: `fpBuf` holds the unit
weights, the field-spectrum buffer, which `malloc` returns with unspecified content, holds `ek`,
and the other buffers hold zeros. -/
def globalsAtStart {K : Type} [Field K] (C : Consts K) (ek : Buf K) : Globals K :=
  ⟨zeroBuf, fun _ => 0, unitWeights C (fun _ => 0), zeroBuf, ek, zeroBuf⟩

/-- Global buffers that hold the field-spectrum buffer `ek` and zeros elsewhere. -/
def globalsWith {K : Type} [Field K] (ek : Buf K) : Globals K :=
  ⟨zeroBuf, fun _ => 0, fun _ => 0, zeroBuf, ek, zeroBuf⟩

/-! ## Binary64 arithmetic

The definitions above take every operation on `double` as the exact operation of a field.  The
definitions below repeat the statements of `fields` with the four operations as a parameter, so
that they can be run both exactly and with each result rounded to binary64. -/

/-- The four arithmetic operations on `double`. -/
structure Arith (K : Type) where
  add : K → K → K
  sub : K → K → K
  mul : K → K → K
  div : K → K → K

/-- The operations without rounding. -/
def exactArith {K : Type} [Field K] : Arith K :=
  ⟨fun a b => a + b, fun a b => a - b, fun a b => a * b, fun a b => a / b⟩

/-- The power `2^e` for an integer exponent `e`. -/
def pow2 (e : Int) : ℚ :=
  if 0 ≤ e then ((2 ^ e.toNat : Nat) : ℚ) else 1 / ((2 ^ (-e).toNat : Nat) : ℚ)

/-- The integer nearest to `q`, the even one of the two when `q` lies half-way. -/
def roundHalfEven (q : ℚ) : Int :=
  if q - (⌊q⌋ : ℚ) < 1 / 2 then ⌊q⌋
  else if 1 / 2 < q - (⌊q⌋ : ℚ) then ⌊q⌋ + 1
  else if ⌊q⌋ % 2 = 0 then ⌊q⌋ else ⌊q⌋ + 1

/-- The number of halvings that bring `n` below 2, with at most `fuel` steps. -/
def log2Fuel : Nat → Nat → Nat
  | 0, _ => 0
  | fuel + 1, n => if 2 ≤ n then log2Fuel fuel (n / 2) + 1 else 0

/-- The integer part of the binary logarithm of `n`. -/
def log2Floor (n : Nat) : Nat := log2Fuel n n

/-- The exponent `e` of the spacing `2^e` of the binary64 numbers around `q ≠ 0`: the one with
`2^52 ≤ |q| / 2^e < 2^53` (53 significant bits), and `-1074` in the subnormal range. -/
def ulpExp (q : ℚ) : Int :=
  let e0 : Int := (log2Floor q.num.natAbs : Int) - (log2Floor q.den : Int) - 52
  let e1 : Int :=
    if |q| / pow2 e0 < pow2 52 then e0 - 1 else if pow2 53 ≤ |q| / pow2 e0 then e0 + 1 else e0
  max e1 (-1074)

/-- Rounding to the nearest binary64 number, ties to even (the default rounding of IEEE 754).
Overflow is left out: a result of magnitude `2^1024` or more is kept as a number. -/
def round64 (q : ℚ) : ℚ :=
  if q = 0 then 0 else (roundHalfEven (q / pow2 (ulpExp q)) : ℚ) * pow2 (ulpExp q)

/-- The operations of binary64: the exact result, rounded. -/
def binary64 : Arith ℚ :=
  ⟨fun a b => round64 (a + b), fun a b => round64 (a - b), fun a b => round64 (a * b),
   fun a b => round64 (a / b)⟩

/-- The value of `M_PI` as a `double`: `3.141592653589793115997963...`. -/
def M_PI_double : ℚ := 884279719003555 / 281474976710656

/-- The body of the first loop of `fields` with the operations `A`; `DX` is computed as in
`main`, `XMAX / NGRID`. -/
def fieldsBodyWith {K : Type} [Field K] (A : Arith K) (C : Consts K) (rhok sk : Buf K) (j : Nat)
    (s : Buf K × Buf K) : Buf K × Buf K :=
  let k := A.div (A.mul (A.mul 2 C.M_PI) (j : K)) C.XMAX
  let phikRe := A.div (rhok j).re (A.mul (A.mul k k) C.EPS_0)
  let phikIm := A.div (rhok j).im (A.mul (A.mul k k) C.EPS_0)
  let phik1 := setRe s.1 j
    (A.mul (A.sub (A.mul (sk j).re phikRe) (A.mul (sk j).im phikIm))
      (A.div C.XMAX (C.NGRID : K)))
  let phik2 := setIm phik1 j
    (A.mul (A.add (A.mul (sk j).re phikIm) (A.mul (sk j).im phikRe))
      (A.div C.XMAX (C.NGRID : K)))
  let ek1 := setRe s.2 (C.NGRID / 2 + j) (A.mul k (phik2 j).im)
  let ek2 := setIm ek1 (C.NGRID / 2 + j) (A.mul (-k) (phik2 j).re)
  (phik2, ek2)

/-- The statements `phikBuf[0] = 0` and the first loop of `fields` with the operations `A`. -/
def fieldsSolveWith {K : Type} [Field K] (A : Arith K) (C : Consts K) (rhok sk : Buf K)
    (g : Globals K) : Buf K × Buf K :=
  forLoop 1 (C.NGRID / 2) (fieldsBodyWith A C rhok sk)
    (setIm (setRe g.phikBuf 0 0) 0 0, g.ekBuf)

/-- The accumulation `pot += phikBuf[j][0] * rhok[j][0] + phikBuf[j][1] * rhok[j][1]` with the
operations `A`. -/
def potentialSumWith {K : Type} [Field K] (A : Arith K) (C : Consts K) (rhok phik : Buf K) : K :=
  forLoop 1 (C.NGRID / 2)
    (fun j pot =>
      A.add pot (A.add (A.mul (phik j).re (rhok j).re) (A.mul (phik j).im (rhok j).im))) 0

/-- The function `fields(rhok, sk, phi, &potential)` with the operations `A`: the potential
energy `pot * XMAX` and the global buffers on return. -/
def fieldsWith {K : Type} [Field K] (A : Arith K) (C : Consts K) (rhok sk : Buf K)
    (g : Globals K) : K × Globals K :=
  let s := fieldsSolveWith A C rhok sk g
  (A.mul (potentialSumWith A C rhok s.1) C.XMAX, { g with phikBuf := s.1, ekBuf := s.2 })

/-- The value that `fields` stores in `phikBuf[j]`, with the operations `A`. -/
def phikValWith {K : Type} [Field K] (A : Arith K) (C : Consts K) (rhok sk : Buf K)
    (j : Nat) : Cplx K :=
  ⟨A.mul (A.sub
      (A.mul (sk j).re (A.div (rhok j).re
        (A.mul (A.mul (A.div (A.mul (A.mul 2 C.M_PI) (j : K)) C.XMAX)
          (A.div (A.mul (A.mul 2 C.M_PI) (j : K)) C.XMAX)) C.EPS_0)))
      (A.mul (sk j).im (A.div (rhok j).im
        (A.mul (A.mul (A.div (A.mul (A.mul 2 C.M_PI) (j : K)) C.XMAX)
          (A.div (A.mul (A.mul 2 C.M_PI) (j : K)) C.XMAX)) C.EPS_0))))
      (A.div C.XMAX (C.NGRID : K)),
   A.mul (A.add
      (A.mul (sk j).re (A.div (rhok j).im
        (A.mul (A.mul (A.div (A.mul (A.mul 2 C.M_PI) (j : K)) C.XMAX)
          (A.div (A.mul (A.mul 2 C.M_PI) (j : K)) C.XMAX)) C.EPS_0)))
      (A.mul (sk j).im (A.div (rhok j).re
        (A.mul (A.mul (A.div (A.mul (A.mul 2 C.M_PI) (j : K)) C.XMAX)
          (A.div (A.mul (A.mul 2 C.M_PI) (j : K)) C.XMAX)) C.EPS_0))))
      (A.div C.XMAX (C.NGRID : K))⟩

/-- The value that `fields` stores in `ekBuf[NGRID/2 + j]`, with the operations `A`. -/
def ekValWith {K : Type} [Field K] (A : Arith K) (C : Consts K) (rhok sk : Buf K)
    (j : Nat) : Cplx K :=
  ⟨A.mul (A.div (A.mul (A.mul 2 C.M_PI) (j : K)) C.XMAX) (phikValWith A C rhok sk j).im,
   A.mul (-(A.div (A.mul (A.mul 2 C.M_PI) (j : K)) C.XMAX)) (phikValWith A C rhok sk j).re⟩

/-- The charge spectrum `rhok[j] = (j + 1) - 2j i`. -/
def rampBuf : Buf ℚ := fun j => ⟨(j : ℚ) + 1, -(2 * (j : ℚ))⟩

/-- A buffer whose entries are all `c`. -/
def constBuf (c : Cplx ℚ) : Buf ℚ := fun _ => c

/-! ## Loop lemmas -/

theorem loopFrom_pointwise {α : Type} (g : Nat → α → α) (n lo : Nat) (s : Nat → α) (i : Nat) :
    loopFrom (fun j s => Function.update s j (g j (s j))) lo n s i
      = if lo ≤ i ∧ i < lo + n then g i (s i) else s i := by
  induction n generalizing lo s with
  | zero =>
    rw [loopFrom, if_neg (by omega)]
  | succ n ih =>
    rw [loopFrom, ih]
    by_cases h1 : i = lo
    · subst h1
      simp
    · have h2 : (lo + 1 ≤ i ∧ i < lo + 1 + n) ↔ (lo ≤ i ∧ i < lo + (n + 1)) := by omega
      simp only [h2, Function.update_noteq h1]

theorem forLoop_pointwise {α : Type} (g : Nat → α → α) (hi : Nat) (s : Nat → α) (i : Nat) :
    forLoop 0 hi (fun j s => Function.update s j (g j (s j))) s i
      = if i < hi then g i (s i) else s i := by
  unfold forLoop
  rw [loopFrom_pointwise]
  simp

theorem xPushStep_mem {K : Type} [LinearOrderedField K] (C : Consts K) (xi vi : K)
    (hx0 : 0 ≤ xi) (hxL : xi < C.XMAX) (hd : |C.DT * vi| ≤ C.XMAX) :
    0 ≤ xPushStep C xi vi ∧ xPushStep C xi vi < C.XMAX := by
  obtain ⟨hlo, hhi⟩ := abs_le.mp hd
  unfold xPushStep
  simp only
  split_ifs with h1 h2 h3
  · constructor <;> linarith
  · constructor <;> linarith
  · constructor <;> linarith
  · push_neg at h1 h3
    exact ⟨h1, h3⟩

theorem loopFrom_succ_last {σ : Type} (body : Nat → σ → σ) (n lo : Nat) (s : σ) :
    loopFrom body lo (n + 1) s = body (lo + n) (loopFrom body lo n s) := by
  induction n generalizing lo s with
  | zero => simp [loopFrom]
  | succ n ih =>
    rw [loopFrom, ih, loopFrom]
    congr 1
    omega

theorem loopFrom_add {K : Type} [Field K] (f : Nat → K) (n lo : Nat) (a : K) :
    loopFrom (fun j acc => acc + f j) lo n a = a + ∑ k in Finset.range n, f (lo + k) := by
  induction n with
  | zero => simp [loopFrom]
  | succ n ih => rw [loopFrom_succ_last, ih, Finset.sum_range_succ, add_assoc]

theorem setRe_apply {K : Type} (b : Buf K) (j t : Nat) (r : K) :
    setRe b j r t = if t = j then ⟨r, (b j).im⟩ else b t := by
  unfold setRe
  by_cases h : t = j
  · subst h
    simp
  · simp [Function.update_noteq h, h]

theorem setIm_apply {K : Type} (b : Buf K) (j t : Nat) (r : K) :
    setIm b j r t = if t = j then ⟨(b j).re, r⟩ else b t := by
  unfold setIm
  by_cases h : t = j
  · subst h
    simp
  · simp [Function.update_noteq h, h]

theorem setRe_im {K : Type} (b : Buf K) (j t : Nat) (r : K) : (setRe b j r t).im = (b t).im := by
  rw [setRe_apply]
  split_ifs with h
  · rw [h]
  · rfl

theorem setIm_setRe {K : Type} (b : Buf K) (j : Nat) (a c : K) :
    setIm (setRe b j a) j c = Function.update b j ⟨a, c⟩ := by
  funext t
  rw [setIm_apply, setRe_apply, setRe_apply]
  by_cases h : t = j
  · subst h
    simp
  · simp [Function.update_noteq h, h]

theorem depositBody_eq {K : Type} [Field K] (C : Consts K) (zcBuf sk : Buf K) (j : Nat)
    (rhok : Buf K) :
    depositBody C zcBuf sk j rhok = Function.update rhok j (rhokVal C zcBuf sk j) := by
  unfold depositBody rhokVal
  simp only [setIm_setRe]

theorem depositLoop_apply {K : Type} [Field K] (C : Consts K) (zcBuf sk rhok : Buf K)
    (j : Nat) :
    forLoop 0 (C.NGRID / 2) (depositBody C zcBuf sk) rhok j
      = if j < C.NGRID / 2 then rhokVal C zcBuf sk j else rhok j := by
  have hb : depositBody C zcBuf sk
      = fun (j : Nat) (s : Buf K) => Function.update s j (rhokVal C zcBuf sk j) := by
    funext j s
    exact depositBody_eq C zcBuf sk j s
  rw [hb]
  exact forLoop_pointwise (fun j _ => rhokVal C zcBuf sk j) (C.NGRID / 2) rhok j

theorem depositModes_apply {K : Type} [Field K] (C : Consts K) (zcBuf sk rhok : Buf K)
    (j : Nat) (hj : 1 ≤ j) (hjH : j < C.NGRID / 2) :
    depositModes C zcBuf sk rhok j = rhokVal C zcBuf sk j := by
  unfold depositModes
  rw [setRe_apply, if_neg (by omega), depositLoop_apply, if_pos hjH]

theorem fieldsBody_eq {K : Type} [Field K] (C : Consts K) (rhok sk : Buf K) (j : Nat)
    (s : Buf K × Buf K) :
    fieldsBody C rhok sk j s
      = (Function.update s.1 j (phikVal C rhok sk j),
         Function.update s.2 (C.NGRID / 2 + j) (ekVal C rhok sk j)) := by
  unfold fieldsBody ekVal phikVal
  simp only [setIm_setRe, Function.update_same]

theorem loopFrom_pair {α β : Type} (P : Nat → α) (E : Nat → β) (a n lo : Nat)
    (s : (Nat → α) × (Nat → β)) :
    loopFrom (fun j s => (Function.update s.1 j (P j), Function.update s.2 (a + j) (E j))) lo n s
      = (fun t => if lo ≤ t ∧ t < lo + n then P t else s.1 t,
         fun t => if a + lo ≤ t ∧ t < a + lo + n then E (t - a) else s.2 t) := by
  induction n with
  | zero =>
    rw [loopFrom]
    refine Prod.ext (funext fun t => ?_) (funext fun t => ?_)
    · simp only
      rw [if_neg (by omega)]
    · simp only
      rw [if_neg (by omega)]
  | succ n ih =>
    rw [loopFrom_succ_last, ih]
    refine Prod.ext (funext fun t => ?_) (funext fun t => ?_)
    · simp only
      by_cases h : t = lo + n
      · subst h
        rw [Function.update_same, if_pos (by omega)]
      · rw [Function.update_noteq h]
        by_cases h2 : lo ≤ t ∧ t < lo + n
        · rw [if_pos h2, if_pos (by omega)]
        · rw [if_neg h2, if_neg (by omega)]
    · simp only
      by_cases h : t = a + (lo + n)
      · subst h
        rw [Function.update_same, if_pos (by omega)]
        congr 1
        omega
      · rw [Function.update_noteq h]
        by_cases h2 : a + lo ≤ t ∧ t < a + lo + n
        · rw [if_pos h2, if_pos (by omega)]
        · rw [if_neg h2, if_neg (by omega)]

theorem fieldsSolve_eq {K : Type} [Field K] (C : Consts K) (rhok sk : Buf K) (g : Globals K) :
    fieldsSolve C rhok sk g
      = (fun t => if 1 ≤ t ∧ t < 1 + (C.NGRID / 2 - 1) then phikVal C rhok sk t
            else setIm (setRe g.phikBuf 0 0) 0 0 t,
         fun t => if C.NGRID / 2 + 1 ≤ t ∧ t < C.NGRID / 2 + 1 + (C.NGRID / 2 - 1)
            then ekVal C rhok sk (t - C.NGRID / 2) else g.ekBuf t) := by
  unfold fieldsSolve forLoop
  have hb : fieldsBody C rhok sk
      = fun (j : Nat) (s : Buf K × Buf K) => (Function.update s.1 j (phikVal C rhok sk j),
          Function.update s.2 (C.NGRID / 2 + j) (ekVal C rhok sk j)) := by
    funext j s
    exact fieldsBody_eq C rhok sk j s
  rw [hb, loopFrom_pair]

theorem fieldsSolve_phik {K : Type} [Field K] (C : Consts K) (rhok sk : Buf K) (g : Globals K)
    (j : Nat) (hj : 1 ≤ j) (hjH : j < C.NGRID / 2) :
    (fieldsSolve C rhok sk g).1 j = phikVal C rhok sk j := by
  rw [fieldsSolve_eq]
  simp only
  rw [if_pos (by omega)]

theorem fieldsSolve_ek {K : Type} [Field K] (C : Consts K) (rhok sk : Buf K) (g : Globals K)
    (j : Nat) (hj : 1 ≤ j) (hjH : j < C.NGRID / 2) :
    (fieldsSolve C rhok sk g).2 (C.NGRID / 2 + j) = ekVal C rhok sk j := by
  rw [fieldsSolve_eq]
  simp only
  rw [if_pos (by omega)]
  congr 1
  omega

theorem fieldsSolve_ek_other {K : Type} [Field K] (C : Consts K) (rhok sk : Buf K)
    (g : Globals K) (t : Nat) (ht : t ≤ C.NGRID / 2) :
    (fieldsSolve C rhok sk g).2 t = g.ekBuf t := by
  rw [fieldsSolve_eq]
  simp only
  rw [if_neg (by omega)]

theorem hermitianBody_eq {K : Type} [Field K] (C : Consts K) (j : Nat) (ek : Buf K) :
    hermitianBody C j ek = Function.update ek (C.NGRID / 2 - j) (conj (ek (j + C.NGRID / 2))) := by
  unfold hermitianBody conj
  simp only [setRe_im]
  rw [setIm_setRe]

theorem hermitianLoop_apply {K : Type} [Field K] (C : Consts K) (e0 : Buf K) (n t : Nat)
    (hn : n ≤ C.NGRID / 2) :
    loopFrom (hermitianBody C) 0 n e0 t
      = if C.NGRID / 2 - n < t ∧ t ≤ C.NGRID / 2 then conj (e0 (2 * (C.NGRID / 2) - t))
        else e0 t := by
  induction n generalizing t with
  | zero =>
    rw [loopFrom, if_neg (by omega)]
  | succ n ih =>
    rw [loopFrom_succ_last, hermitianBody_eq]
    by_cases h : t = C.NGRID / 2 - (0 + n)
    · subst h
      rw [Function.update_same, ih _ (by omega), if_neg (by omega), if_pos (by omega)]
      congr 2
      omega
    · rw [Function.update_noteq h, ih _ (by omega)]
      by_cases h2 : C.NGRID / 2 - n < t ∧ t ≤ C.NGRID / 2
      · rw [if_pos h2, if_pos (by omega)]
      · rw [if_neg h2, if_neg (by omega)]

theorem hermitianFill_apply {K : Type} [Field K] (C : Consts K) (ekBuf : Buf K) (t : Nat) :
    hermitianFill C ekBuf t
      = if 1 ≤ t ∧ t ≤ C.NGRID / 2 then conj (ekBuf (2 * (C.NGRID / 2) - t))
        else if t = 0 then ⟨0, 0⟩ else ekBuf t := by
  unfold hermitianFill forLoop
  rw [hermitianLoop_apply C _ _ t (by omega), setIm_setRe]
  by_cases h : 1 ≤ t ∧ t ≤ C.NGRID / 2
  · rw [if_pos (by omega), if_pos h, Function.update_noteq (by omega)]
  · rw [if_neg (by omega), if_neg h]
    by_cases h0 : t = 0
    · subst h0
      simp
    · rw [if_neg h0, Function.update_noteq h0]

/-! ## Claims -/

/-- C1. Periodicity of `xPush`: a particle that starts in `[0, XMAX)` (so that the domain length
is positive) and moves by at most one domain length (`|DT * v[i]| ≤ XMAX`) is written back by
`xPush` at a position in `[0, XMAX)`. -/
theorem xPush_periodic {K : Type} [LinearOrderedField K] (C : Consts K) (x v : Nat → K) (i : Nat)
    (hi : i < C.PART_NUM) (hx0 : 0 ≤ x i) (hxL : x i < C.XMAX)
    (hd : |C.DT * v i| ≤ C.XMAX) :
    0 ≤ xPush C x v i ∧ xPush C x v i < C.XMAX := by
  unfold xPush
  rw [forLoop_pointwise (fun i xi => xPushStep C xi (v i)), if_pos hi]
  exact xPushStep_mem C (x i) (v i) hx0 hxL hd

/-! ### Mode 0 of the charge spectrum -/

theorem vHalfPush_ekBuf {K : Type} [Field K] (C : Consts K) (uf1a : Uf1a K) (x v : Nat → K)
    (forward : Int) (g : Globals K) :
    (vHalfPush C uf1a x v forward g).2.ekBuf = hermitianFill C g.ekBuf := rfl

theorem hermitianFill_dc {K : Type} [Field K] (C : Consts K) (ekBuf : Buf K)
    (hH : 0 < C.NGRID / 2) :
    hermitianFill C ekBuf (C.NGRID / 2) = conj (ekBuf (C.NGRID / 2)) := by
  rw [hermitianFill_apply, if_pos (by omega)]
  congr 2
  omega

theorem hermitianFill_lower {K : Type} [Field K] (C : Consts K) (ekBuf : Buf K) (m : Nat)
    (hm : 1 ≤ m) (hmH : m < C.NGRID / 2) :
    hermitianFill C ekBuf (C.NGRID / 2 - m) = conj (ekBuf (C.NGRID / 2 + m)) := by
  rw [hermitianFill_apply, if_pos (by omega)]
  congr 2
  omega

theorem hermitianFill_upper {K : Type} [Field K] (C : Consts K) (ekBuf : Buf K) (t : Nat)
    (ht : C.NGRID / 2 < t) :
    hermitianFill C ekBuf t = ekBuf t := by
  rw [hermitianFill_apply, if_neg (by omega), if_neg (by omega)]

theorem hermitianFill_zero {K : Type} [Field K] (C : Consts K) (ekBuf : Buf K) :
    hermitianFill C ekBuf 0 = ⟨0, 0⟩ := by
  rw [hermitianFill_apply, if_neg (by omega), if_pos rfl]

/-- The part of the Hermitian symmetry that the code establishes: for every mode number `m`
with `1 ≤ m < NGRID/2` the entry of mode `-m` is the conjugate of the entry of mode `m`. -/
theorem hermitianFill_symm {K : Type} [Field K] (C : Consts K) (ekBuf : Buf K) (m : Nat)
    (hm : 1 ≤ m) (hmH : m < C.NGRID / 2) :
    hermitianFill C ekBuf (C.NGRID / 2 - m) = conj (hermitianFill C ekBuf (C.NGRID / 2 + m)) := by
  rw [hermitianFill_lower C ekBuf m hm hmH, hermitianFill_upper C ekBuf _ (by omega)]

/-- C3 (code defect). At the configured constants, when the field-spectrum buffer holds
`0 + 1i` at index 32 (the entry of mode 0, which `fields` does not write), the spectrum that
`vHalfPush` passes to the inverse transform holds `0 - 1i` there: the entry of mode `-0` differs
from the conjugate of the entry of mode `+0`, so the symmetry fails at `m = 0`. -/
theorem vHalfPush_dc_not_hermitian :
    (vHalfPush (configured Real.pi) (uf1aExact Real.cos Real.sin Real.pi) (fun _ => 0)
        (fun _ => 0) 1 (fields (configured Real.pi) zeroBuf oneBuf
          (globalsWith (spikeBuf 32 ⟨0, 1⟩))).2).2.ekBuf (32 - 0) = ⟨0, -1⟩
    ∧ (vHalfPush (configured Real.pi) (uf1aExact Real.cos Real.sin Real.pi) (fun _ => 0)
        (fun _ => 0) 1 (fields (configured Real.pi) zeroBuf oneBuf
          (globalsWith (spikeBuf 32 ⟨0, 1⟩))).2).2.ekBuf (32 - 0)
      ≠ conj ((vHalfPush (configured Real.pi) (uf1aExact Real.cos Real.sin Real.pi) (fun _ => 0)
        (fun _ => 0) 1 (fields (configured Real.pi) zeroBuf oneBuf
          (globalsWith (spikeBuf 32 ⟨0, 1⟩))).2).2.ekBuf (32 + 0)) := by
  have h : (vHalfPush (configured Real.pi) (uf1aExact Real.cos Real.sin Real.pi) (fun _ => 0)
        (fun _ => 0) 1 (fields (configured Real.pi) zeroBuf oneBuf
          (globalsWith (spikeBuf 32 ⟨0, 1⟩))).2).2.ekBuf 32 = ⟨0, -1⟩ := by
    rw [vHalfPush_ekBuf]
    have h32 : (configured Real.pi).NGRID / 2 = 32 := by simp [configured]
    have hd := hermitianFill_dc (configured Real.pi)
      (fields (configured Real.pi) zeroBuf oneBuf (globalsWith (spikeBuf 32 ⟨0, 1⟩))).2.ekBuf
      (by simp [configured])
    rw [h32] at hd
    rw [hd]
    unfold fields
    simp only
    rw [fieldsSolve_ek_other _ _ _ _ _ (by simp [configured])]
    simp [globalsWith, spikeBuf, conj]
  simp only [Nat.sub_zero, Nat.add_zero]
  rw [h]
  refine ⟨rfl, ?_⟩
  intro hc
  have him := congrArg Cplx.im hc
  simp only [conj] at him
  norm_num at him

/-- C6 (code defect). At the configured constants, when the field-spectrum buffer holds
`1 + 0i` at index 32 before `fields` runs, the spectrum that `vHalfPush` passes to the inverse
transform still holds `1 + 0i` at index 32, the entry of the zero mode: neither `fields` nor
`vHalfPush` clears it, `vHalfPush` clears index 0 instead. -/
theorem vHalfPush_zero_mode_kept :
    (vHalfPush (configured Real.pi) (uf1aExact Real.cos Real.sin Real.pi) (fun _ => 0)
        (fun _ => 0) 1 (fields (configured Real.pi) zeroBuf oneBuf
          (globalsWith (spikeBuf 32 ⟨1, 0⟩))).2).2.ekBuf 32 = ⟨1, 0⟩
    ∧ (vHalfPush (configured Real.pi) (uf1aExact Real.cos Real.sin Real.pi) (fun _ => 0)
        (fun _ => 0) 1 (fields (configured Real.pi) zeroBuf oneBuf
          (globalsWith (spikeBuf 32 ⟨1, 0⟩))).2).2.ekBuf 0 = ⟨0, 0⟩ := by
  constructor
  · rw [vHalfPush_ekBuf]
    have h32 : (configured Real.pi).NGRID / 2 = 32 := by simp [configured]
    have hd := hermitianFill_dc (configured Real.pi)
      (fields (configured Real.pi) zeroBuf oneBuf (globalsWith (spikeBuf 32 ⟨1, 0⟩))).2.ekBuf
      (by simp [configured])
    rw [h32] at hd
    rw [hd]
    unfold fields
    simp only
    rw [fieldsSolve_ek_other _ _ _ _ _ (by simp [configured])]
    simp [globalsWith, spikeBuf, conj]
  · rw [vHalfPush_ekBuf, hermitianFill_zero]

/-! ### The mode log -/

/-- C8 (code defect). At the configured constants (`NGRID = 64`, `MODELOG_MAX = 64`), the
mode-log loop of `fields` reads the indices 32 and 64, which lie outside the range
`1 .. NGRID/2 - 1 = 31` of the modes that `fields` writes and outside the 32 entries
allocated for `phikBuf`; only 31 of the 64 indices read are valid modes. -/
theorem modeLog_reads_past_modes :
    32 ∈ modeLogReads (configured Real.pi) ∧ 64 ∈ modeLogReads (configured Real.pi)
    ∧ (configured Real.pi).NGRID / 2 - 1 = 31 ∧ phikBufLen (configured Real.pi) = 32
    ∧ ((modeLogReads (configured Real.pi)).filter
        (fun j => decide (j ≤ (configured Real.pi).NGRID / 2 - 1))).length = 31
    ∧ (modeLogReads (configured Real.pi)).length = 64 := by
  simp only [modeLogReads, configured, phikBufLen]
  decide

/-! ### The field solve -/

theorem fields_phik {K : Type} [Field K] (C : Consts K) (rhok sk : Buf K) (g : Globals K)
    (j : Nat) (hj : 1 ≤ j) (hjH : j < C.NGRID / 2) :
    (fields C rhok sk g).2.phikBuf j = phikVal C rhok sk j :=
  fieldsSolve_phik C rhok sk g j hj hjH

theorem fields_ek {K : Type} [Field K] (C : Consts K) (rhok sk : Buf K) (g : Globals K)
    (j : Nat) (hj : 1 ≤ j) (hjH : j < C.NGRID / 2) :
    (fields C rhok sk g).2.ekBuf (C.NGRID / 2 + j) = ekVal C rhok sk j :=
  fieldsSolve_ek C rhok sk g j hj hjH

/-- C5 as stated fails. At the configured constants, with `rhok[1] = 1 + 0i` and
`sk[1] = 1 + 0i`, the imaginary part that `fields` stores for mode 1 is not
`k_1 * Re(phik[1])`: it is `-k_1 * Re(phik[1])`, and that number is not zero. -/
theorem field_sign_counterexample :
    ¬ (((fields (configured Real.pi) oneBuf oneBuf (globalsWith zeroBuf)).2.ekBuf (64 / 2 + 1)).re
          = -waveNumber (configured Real.pi) 1
              * ((fields (configured Real.pi) oneBuf oneBuf (globalsWith zeroBuf)).2.phikBuf 1).im
        ∧ ((fields (configured Real.pi) oneBuf oneBuf (globalsWith zeroBuf)).2.ekBuf
              (64 / 2 + 1)).im
          = waveNumber (configured Real.pi) 1
              * ((fields (configured Real.pi) oneBuf oneBuf (globalsWith zeroBuf)).2.phikBuf 1).re)
        := by
  rintro ⟨-, h⟩
  have he := fields_ek (configured Real.pi) oneBuf oneBuf (globalsWith zeroBuf) 1 (le_refl 1)
    (by simp [configured])
  have hp := fields_phik (configured Real.pi) oneBuf oneBuf (globalsWith zeroBuf) 1 (le_refl 1)
    (by simp [configured])
  have h64 : (configured Real.pi).NGRID / 2 = 64 / 2 := by simp [configured]
  rw [h64] at he
  rw [he, hp] at h
  have hpi := Real.pi_ne_zero
  simp only [ekVal, phikVal, waveNumber, DX, configured, oneBuf] at h
  field_simp at h
  have h3 : 0 < Real.pi ^ 3 := pow_pos Real.pi_pos 3
  nlinarith [h3]

/-- C5 (amended). For every mode `j` with `1 ≤ j ≤ NGRID/2 - 1` and `k_j = 2*M_PI*j/XMAX`, the
coefficient that `fields` stores in `ekBuf[NGRID/2 + j]` has real part `k_j * Im(phik[j])` and
imaginary part `-k_j * Re(phik[j])`, with `phik[j]` the potential coefficient that `fields` has
stored in `phikBuf[j]`: the rule is `E_k = -i * k * phi_k`. -/
theorem fields_rule {K : Type} [Field K] (C : Consts K) (rhok sk : Buf K) (g : Globals K)
    (j : Nat) (hj : 1 ≤ j) (hjH : j ≤ C.NGRID / 2 - 1) :
    ((fields C rhok sk g).2.ekBuf (C.NGRID / 2 + j)).re
        = waveNumber C j * ((fields C rhok sk g).2.phikBuf j).im
    ∧ ((fields C rhok sk g).2.ekBuf (C.NGRID / 2 + j)).im
        = -waveNumber C j * ((fields C rhok sk g).2.phikBuf j).re := by
  rw [fields_ek C rhok sk g j hj (by omega), fields_phik C rhok sk g j hj (by omega)]
  exact ⟨rfl, rfl⟩

theorem fields_rule_witness :
    ((fields (configured Real.pi) oneBuf oneBuf (globalsWith zeroBuf)).2.ekBuf
          ((configured Real.pi).NGRID / 2 + 1)).re
        = waveNumber (configured Real.pi) 1
            * ((fields (configured Real.pi) oneBuf oneBuf (globalsWith zeroBuf)).2.phikBuf 1).im
    ∧ ((fields (configured Real.pi) oneBuf oneBuf (globalsWith zeroBuf)).2.ekBuf
          ((configured Real.pi).NGRID / 2 + 1)).im
        = -waveNumber (configured Real.pi) 1
            * ((fields (configured Real.pi) oneBuf oneBuf (globalsWith zeroBuf)).2.phikBuf 1).re :=
  fields_rule (configured Real.pi) oneBuf oneBuf (globalsWith zeroBuf) 1 (by decide)
    (by simp [configured])

/-! ### The potential energy -/

/-- The energy term of mode `j` in closed form. -/
theorem energy_term {K : Type} [Field K] (C : Consts K) (rhok sk : Buf K) (j : Nat) :
    (phikVal C rhok sk j).re * (rhok j).re + (phikVal C rhok sk j).im * (rhok j).im
      = DX C * ((sk j).re * ((rhok j).re ^ 2 + (rhok j).im ^ 2)
          / (C.EPS_0 * waveNumber C j ^ 2)) := by
  unfold phikVal
  simp only
  have hd : waveNumber C j * waveNumber C j * C.EPS_0 = C.EPS_0 * waveNumber C j ^ 2 := by ring
  rw [hd]
  ring

theorem fields_potential {K : Type} [Field K] (C : Consts K) (rhok sk : Buf K)
    (g : Globals K) :
    (fields C rhok sk g).1
      = C.XMAX * DX C * ∑ j in Finset.Ico 1 (C.NGRID / 2),
          (sk j).re * ((rhok j).re ^ 2 + (rhok j).im ^ 2) / (C.EPS_0 * waveNumber C j ^ 2) := by
  unfold fields potentialSum forLoop
  simp only
  have hsum : ∑ k in Finset.range (C.NGRID / 2 - 1),
        (((fieldsSolve C rhok sk g).1 (1 + k)).re * (rhok (1 + k)).re
          + ((fieldsSolve C rhok sk g).1 (1 + k)).im * (rhok (1 + k)).im)
      = ∑ k in Finset.range (C.NGRID / 2 - 1),
        DX C * ((sk (1 + k)).re * ((rhok (1 + k)).re ^ 2 + (rhok (1 + k)).im ^ 2)
          / (C.EPS_0 * waveNumber C (1 + k) ^ 2)) := by
    apply Finset.sum_congr rfl
    intro k hk
    have hk2 := Finset.mem_range.mp hk
    rw [fieldsSolve_phik C rhok sk g (1 + k) (by omega) (by omega), energy_term]
  rw [loopFrom_add, zero_add, Finset.sum_Ico_eq_sum_range, hsum, ← Finset.mul_sum]
  ring

/-- C10 (amended). In exact arithmetic, the potential energy that `fields` returns equals
`XMAX * DX * sum_{j=1}^{NGRID/2-1} Re(sk[j]) * (Re(rhok[j])^2 + Im(rhok[j])^2) / (EPS_0 * k_j^2)`
with `k_j = 2*M_PI*j/XMAX`; it is the same for two filters with equal real parts on the modes
`1 .. NGRID/2 - 1`; and, when `EPS_0 > 0` and `XMAX > 0`, it is `≥ 0` whenever
`Re(sk[j]) ≥ 0` on these modes. -/
theorem fields_potential_closed_form {K : Type} [LinearOrderedField K] (C : Consts K)
    (rhok sk : Buf K) (g : Globals K) (hE : 0 < C.EPS_0) (hL : 0 < C.XMAX) :
    (fields C rhok sk g).1
      = C.XMAX * (C.XMAX / (C.NGRID : K)) * ∑ j in Finset.Ico 1 (C.NGRID / 2),
          (sk j).re * ((rhok j).re ^ 2 + (rhok j).im ^ 2)
            / (C.EPS_0 * (2 * C.M_PI * (j : K) / C.XMAX) ^ 2)
    ∧ (∀ sk2 : Buf K, (∀ j, 1 ≤ j → j ≤ C.NGRID / 2 - 1 → (sk2 j).re = (sk j).re) →
        (fields C rhok sk2 g).1 = (fields C rhok sk g).1)
    ∧ ((∀ j, 1 ≤ j → j ≤ C.NGRID / 2 - 1 → 0 ≤ (sk j).re) → 0 ≤ (fields C rhok sk g).1) := by
  refine ⟨fields_potential C rhok sk g, ?_, ?_⟩
  · intro sk2 h
    rw [fields_potential, fields_potential]
    congr 1
    apply Finset.sum_congr rfl
    intro j hj
    have hj2 := Finset.mem_Ico.mp hj
    rw [h j hj2.1 (by omega)]
  · intro h
    rw [fields_potential]
    have hDX : 0 ≤ DX C := by
      unfold DX
      exact div_nonneg hL.le (Nat.cast_nonneg _)
    apply mul_nonneg (mul_nonneg hL.le hDX)
    apply Finset.sum_nonneg
    intro j hj
    have hj2 := Finset.mem_Ico.mp hj
    apply div_nonneg
    · exact mul_nonneg (h j hj2.1 (by omega)) (add_nonneg (sq_nonneg _) (sq_nonneg _))
    · exact mul_nonneg hE.le (sq_nonneg _)

/-! ### The potential energy in binary64 -/

theorem fieldsWith_exact {K : Type} [Field K] (C : Consts K) (rhok sk : Buf K)
    (g : Globals K) :
    fieldsWith exactArith C rhok sk g = fields C rhok sk g := rfl

theorem loopFrom_congr {σ : Type} (b1 b2 : Nat → σ → σ) (n lo : Nat) (s : σ)
    (h : ∀ j, lo ≤ j → j < lo + n → ∀ t, b1 j t = b2 j t) :
    loopFrom b1 lo n s = loopFrom b2 lo n s := by
  induction n generalizing lo s with
  | zero => rfl
  | succ n ih =>
    rw [loopFrom, loopFrom, h lo (le_refl lo) (by omega) s]
    exact ih (lo + 1) (b2 lo s) (fun j h1 h2 t => h j (by omega) (by omega) t)

theorem fieldsBodyWith_eq {K : Type} [Field K] (A : Arith K) (C : Consts K) (rhok sk : Buf K)
    (j : Nat) (s : Buf K × Buf K) :
    fieldsBodyWith A C rhok sk j s
      = (Function.update s.1 j (phikValWith A C rhok sk j),
         Function.update s.2 (C.NGRID / 2 + j) (ekValWith A C rhok sk j)) := by
  unfold fieldsBodyWith ekValWith phikValWith
  simp only [setIm_setRe, Function.update_same]

theorem fieldsSolveWith_phik {K : Type} [Field K] (A : Arith K) (C : Consts K)
    (rhok sk : Buf K) (g : Globals K) (j : Nat) (hj : 1 ≤ j) (hjH : j < C.NGRID / 2) :
    (fieldsSolveWith A C rhok sk g).1 j = phikValWith A C rhok sk j := by
  unfold fieldsSolveWith forLoop
  have hb : fieldsBodyWith A C rhok sk
      = fun (j : Nat) (s : Buf K × Buf K) =>
          (Function.update s.1 j (phikValWith A C rhok sk j),
            Function.update s.2 (C.NGRID / 2 + j) (ekValWith A C rhok sk j)) := by
    funext j s
    exact fieldsBodyWith_eq A C rhok sk j s
  rw [hb, loopFrom_pair]
  simp only
  rw [if_pos (by omega)]

/-- The potential energy of `fields` with the operations `A`, as one loop over the modes. -/
theorem fieldsWith_potential {K : Type} [Field K] (A : Arith K) (C : Consts K)
    (rhok sk : Buf K) (g : Globals K) :
    (fieldsWith A C rhok sk g).1
      = A.mul (loopFrom (fun j pot =>
          A.add pot (A.add (A.mul (phikValWith A C rhok sk j).re (rhok j).re)
            (A.mul (phikValWith A C rhok sk j).im (rhok j).im))) 1 (C.NGRID / 2 - 1) 0)
          C.XMAX := by
  unfold fieldsWith potentialSumWith forLoop
  simp only
  congr 1
  apply loopFrom_congr
  intro j h1 h2 t
  rw [fieldsSolveWith_phik A C rhok sk g j h1 (by omega)]

/-- C10 as stated fails. With every operation of `fields` rounded to binary64, at the configured
constants and `rhok[j] = (j+1) - 2j i`: the filter `sk[j] = 1 - 1e20 i`, whose real parts are
`≥ 0`, gives the potential energy `-3145728 < 0`, and the filter `sk[j] = 1 + 0i`, with the same
real parts, gives `2348109904740845 / 549755813888 = 4271.187...`. -/
theorem fields_binary64_counterexample :
    (∀ j, 0 ≤ (constBuf ⟨1, -100000000000000000000⟩ j).re)
    ∧ (fieldsWith binary64 (configured M_PI_double) rampBuf
        (constBuf ⟨1, -100000000000000000000⟩) (globalsWith zeroBuf)).1 = -3145728
    ∧ (fieldsWith binary64 (configured M_PI_double) rampBuf
        (constBuf ⟨1, -100000000000000000000⟩) (globalsWith zeroBuf)).1 < 0
    ∧ (fieldsWith binary64 (configured M_PI_double) rampBuf
        (constBuf ⟨1, 0⟩) (globalsWith zeroBuf)).1 = 2348109904740845 / 549755813888 := by
  have h1 : (fieldsWith binary64 (configured M_PI_double) rampBuf
      (constBuf ⟨1, -100000000000000000000⟩) (globalsWith zeroBuf)).1 = -3145728 := by
    rw [fieldsWith_potential]
    decide!
  have h2 : (fieldsWith binary64 (configured M_PI_double) rampBuf
      (constBuf ⟨1, 0⟩) (globalsWith zeroBuf)).1 = 2348109904740845 / 549755813888 := by
    rw [fieldsWith_potential]
    decide!
  refine ⟨fun j => ?_, h1, ?_, h2⟩
  · simp [constBuf]
  · rw [h1]
    norm_num

/-! ### Two half-kicks -/

theorem xpFill_apply {K : Type} [Field K] (C : Consts K) (x xpBuf : Nat → K) (i : Nat) :
    xpFill C x xpBuf i = if i < C.PART_NUM then x i / C.XMAX else xpBuf i :=
  forLoop_pointwise (fun m _ => x m / C.XMAX) C.PART_NUM xpBuf i

theorem xpFill_idem {K : Type} [Field K] (C : Consts K) (x xpBuf : Nat → K) :
    xpFill C x (xpFill C x xpBuf) = xpFill C x xpBuf := by
  funext i
  rw [xpFill_apply, xpFill_apply]
  split_ifs <;> rfl

theorem vHalfPush_v {K : Type} [Field K] (C : Consts K) (uf1a : Uf1a K) (x v : Nat → K)
    (forward : Int) (g : Globals K) (i : Nat) :
    (vHalfPush C uf1a x v forward g).1 i
      = if i < C.PART_NUM then kick C forward (v i) (ePart C uf1a x g i) else v i :=
  forLoop_pointwise
    (fun m vm => kick C forward vm
      (uf1a C.NGRID (hermitianFill C g.ekBuf) C.PART_NUM (xpFill C x g.xpBuf) 1 5 m).re)
    C.PART_NUM v i

theorem hermitianFill_twice_re {K : Type} [Field K] (C : Consts K) (ekBuf : Buf K) (t : Nat) :
    (hermitianFill C (hermitianFill C ekBuf) t).re = (hermitianFill C ekBuf t).re := by
  rw [hermitianFill_apply C (hermitianFill C ekBuf)]
  by_cases h : 1 ≤ t ∧ t ≤ C.NGRID / 2
  · rw [if_pos h]
    by_cases hH : t = C.NGRID / 2
    · have h2 : 2 * (C.NGRID / 2) - t = t := by omega
      rw [h2]
      rfl
    · rw [hermitianFill_upper C ekBuf _ (by omega), hermitianFill_apply, if_pos h]
  · rw [if_neg h]
    by_cases h0 : t = 0
    · rw [if_pos h0, h0, hermitianFill_zero]
    · rw [if_neg h0]

theorem hermitianFill_twice_im {K : Type} [Field K] (C : Consts K) (ekBuf : Buf K) (t : Nat)
    (ht : t ≠ C.NGRID / 2) :
    (hermitianFill C (hermitianFill C ekBuf) t).im = (hermitianFill C ekBuf t).im := by
  rw [hermitianFill_apply C (hermitianFill C ekBuf)]
  by_cases h : 1 ≤ t ∧ t ≤ C.NGRID / 2
  · rw [if_pos h, hermitianFill_upper C ekBuf _ (by omega), hermitianFill_apply, if_pos h]
  · rw [if_neg h]
    by_cases h0 : t = 0
    · rw [if_pos h0, h0, hermitianFill_zero]
    · rw [if_neg h0]

theorem phase_dc {K : Type} [Field K] (pi : K) (nc : Nat) (xp : K) :
    phase pi nc (nc / 2) xp = 0 := by
  unfold phase
  rw [sub_self, mul_zero, zero_mul]

theorem uf1aExact_re {K : Type} [Field K] (cosF sinF : K → K) (pi : K) (nc np : Nat)
    (ek : Buf K) (xp : Nat → K) (isign : Int) (order i : Nat) (hi : i < np) :
    (uf1aExact cosF sinF pi nc ek np xp isign order i).re
      = ∑ t in Finset.range nc, ((ek t).re * cosF (phase pi nc t (xp i))
          - (isign : K) * (ek t).im * sinF (phase pi nc t (xp i))) := by
  unfold uf1aExact
  rw [if_pos hi]

/-- With the exact inverse transform, the interpolated field of a second call of `vHalfPush`
equals that of the first call at the same positions. -/
theorem ePart_second_call {K : Type} [Field K] (cosF sinF : K → K) (pi : K) (hs : sinF 0 = 0)
    (C : Consts K) (x v : Nat → K) (forward : Int) (g : Globals K) (i : Nat) :
    ePart C (uf1aExact cosF sinF pi) x (vHalfPush C (uf1aExact cosF sinF pi) x v forward g).2 i
      = ePart C (uf1aExact cosF sinF pi) x g i := by
  unfold ePart
  have hg : (vHalfPush C (uf1aExact cosF sinF pi) x v forward g).2.xpBuf
      = xpFill C x g.xpBuf := rfl
  rw [vHalfPush_ekBuf, hg, xpFill_idem]
  by_cases hi : i < C.PART_NUM
  · rw [uf1aExact_re _ _ _ _ _ _ _ _ _ _ hi, uf1aExact_re _ _ _ _ _ _ _ _ _ _ hi]
    apply Finset.sum_congr rfl
    intro t _
    rw [hermitianFill_twice_re]
    by_cases ht : t = C.NGRID / 2
    · rw [ht, phase_dc, hs, mul_zero, mul_zero]
    · rw [hermitianFill_twice_im C g.ekBuf t ht]
  · unfold uf1aExact
    rw [if_neg hi, if_neg hi]

/-- C7. With the inverse transform taken as its exact sum, two consecutive calls of `vHalfPush`
at unchanged positions, with no call of `fields` in between, interpolate the same field `E_i`
(the second call's `ePart` equals the first call's) and each changes `v[i]` by
`(DT/2)*(q/m)*E_i`, added when `forward` is nonzero and subtracted when it is zero; hence
forward followed by forward changes `v[i]` by `DT*(q/m)*E_i`, and backward followed by forward
restores `v[i]`. -/
theorem vHalfPush_twice_same_field (C : Consts ℝ) (x v : Nat → ℝ) (g : Globals ℝ) (f1 f2 : Int)
    (i : Nat) (hi : i < C.PART_NUM) :
    ePart C (uf1aExact Real.cos Real.sin Real.pi) x
        (vHalfPush C (uf1aExact Real.cos Real.sin Real.pi) x v f1 g).2 i
      = ePart C (uf1aExact Real.cos Real.sin Real.pi) x g i
    ∧ (vHalfPush C (uf1aExact Real.cos Real.sin Real.pi) x v f1 g).1 i
      = (if f1 ≠ 0
          then v i + C.DT / 2 * (C.PART_CHARGE / C.PART_MASS)
            * ePart C (uf1aExact Real.cos Real.sin Real.pi) x g i
          else v i - C.DT / 2 * (C.PART_CHARGE / C.PART_MASS)
            * ePart C (uf1aExact Real.cos Real.sin Real.pi) x g i)
    ∧ (vHalfPush C (uf1aExact Real.cos Real.sin Real.pi) x
          (vHalfPush C (uf1aExact Real.cos Real.sin Real.pi) x v f1 g).1 f2
          (vHalfPush C (uf1aExact Real.cos Real.sin Real.pi) x v f1 g).2).1 i
      = (if f2 ≠ 0
          then (vHalfPush C (uf1aExact Real.cos Real.sin Real.pi) x v f1 g).1 i
            + C.DT / 2 * (C.PART_CHARGE / C.PART_MASS)
              * ePart C (uf1aExact Real.cos Real.sin Real.pi) x g i
          else (vHalfPush C (uf1aExact Real.cos Real.sin Real.pi) x v f1 g).1 i
            - C.DT / 2 * (C.PART_CHARGE / C.PART_MASS)
              * ePart C (uf1aExact Real.cos Real.sin Real.pi) x g i)
    ∧ (vHalfPush C (uf1aExact Real.cos Real.sin Real.pi) x
          (vHalfPush C (uf1aExact Real.cos Real.sin Real.pi) x v 1 g).1 1
          (vHalfPush C (uf1aExact Real.cos Real.sin Real.pi) x v 1 g).2).1 i
      = v i + C.DT * (C.PART_CHARGE / C.PART_MASS)
          * ePart C (uf1aExact Real.cos Real.sin Real.pi) x g i
    ∧ (vHalfPush C (uf1aExact Real.cos Real.sin Real.pi) x
          (vHalfPush C (uf1aExact Real.cos Real.sin Real.pi) x v 0 g).1 1
          (vHalfPush C (uf1aExact Real.cos Real.sin Real.pi) x v 0 g).2).1 i
      = v i := by
  have hE : ∀ f : Int, ePart C (uf1aExact Real.cos Real.sin Real.pi) x
        (vHalfPush C (uf1aExact Real.cos Real.sin Real.pi) x v f g).2 i
      = ePart C (uf1aExact Real.cos Real.sin Real.pi) x g i :=
    fun f => ePart_second_call Real.cos Real.sin Real.pi Real.sin_zero C x v f g i
  refine ⟨hE f1, ?_, ?_, ?_, ?_⟩
  · rw [vHalfPush_v, if_pos hi]
    rfl
  · rw [vHalfPush_v, if_pos hi, hE f1]
    rfl
  · rw [vHalfPush_v, if_pos hi, hE 1, vHalfPush_v, if_pos hi]
    simp only [kick]
    norm_num
    ring
  · rw [vHalfPush_v, if_pos hi, hE 0, vHalfPush_v, if_pos hi]
    simp only [kick]
    norm_num

/-! ### Momentum of a kick -/

theorem momentum_eq_sum {K : Type} [Field K] (C : Consts K) (v : Nat → K) :
    momentum C v = ∑ i in Finset.range C.PART_NUM, C.PART_MASS * v i := by
  unfold momentum forLoop
  rw [loopFrom_add, zero_add, Nat.sub_zero]
  apply Finset.sum_congr rfl
  intro i _
  rw [Nat.zero_add]

theorem momentum_vHalfPush {K : Type} [Field K] (C : Consts K) (uf1a : Uf1a K)
    (x v : Nat → K) (forward : Int) (g : Globals K) :
    momentum C (vHalfPush C uf1a x v forward g).1
      = momentum C v + (if forward ≠ 0 then 1 else -1)
          * (C.PART_MASS * (C.DT / 2 * (C.PART_CHARGE / C.PART_MASS)))
          * ∑ i in Finset.range C.PART_NUM, ePart C uf1a x g i := by
  rw [momentum_eq_sum, momentum_eq_sum, Finset.mul_sum, ← Finset.sum_add_distrib]
  apply Finset.sum_congr rfl
  intro i hi
  rw [vHalfPush_v, if_pos (Finset.mem_range.mp hi)]
  unfold kick
  split_ifs <;> ring

theorem uf1tExact_unit {K : Type} [Field K] (cosF sinF : K → K) (pi : K) (nc np : Nat)
    (xp fp : Nat → K) (order t : Nat)
    (hfp : ∀ i, i < np → fp (2 * i) = 1 ∧ fp (2 * i + 1) = 0) :
    uf1tExact cosF sinF pi nc np xp fp (-1) order t
      = ⟨cosSum cosF pi nc np xp t, -sinSum sinF pi nc np xp t⟩ := by
  unfold uf1tExact cosSum sinSum
  congr 1
  · apply Finset.sum_congr rfl
    intro i hi
    obtain ⟨h1, h2⟩ := hfp i (Finset.mem_range.mp hi)
    rw [h1, h2]
    ring
  · rw [← Finset.sum_neg_distrib]
    apply Finset.sum_congr rfl
    intro i hi
    obtain ⟨h1, h2⟩ := hfp i (Finset.mem_range.mp hi)
    rw [h1, h2]
    push_cast
    ring

theorem phase_mirror {K : Type} [Field K] (pi : K) (nc j : Nat) (xp : K) (hj : j ≤ nc / 2) :
    phase pi nc (nc / 2 - j) xp = -phase pi nc (nc / 2 + j) xp := by
  unfold phase
  rw [Nat.cast_sub hj, Nat.cast_add]
  ring

theorem cosSum_mirror {K : Type} [Field K] (cosF : K → K) (pi : K)
    (hc : ∀ a, cosF (-a) = cosF a) (nc np : Nat) (xp : Nat → K) (j : Nat) (hj : j ≤ nc / 2) :
    cosSum cosF pi nc np xp (nc / 2 - j) = cosSum cosF pi nc np xp (nc / 2 + j) := by
  unfold cosSum
  apply Finset.sum_congr rfl
  intro i _
  rw [phase_mirror pi nc j _ hj, hc]

theorem sinSum_mirror {K : Type} [Field K] (sinF : K → K) (pi : K)
    (hs : ∀ a, sinF (-a) = -sinF a) (nc np : Nat) (xp : Nat → K) (j : Nat) (hj : j ≤ nc / 2) :
    sinSum sinF pi nc np xp (nc / 2 - j) = -sinSum sinF pi nc np xp (nc / 2 + j) := by
  unfold sinSum
  rw [← Finset.sum_neg_distrib]
  apply Finset.sum_congr rfl
  intro i _
  rw [phase_mirror pi nc j _ hj, hs]

theorem cosSum_dc {K : Type} [Field K] (cosF : K → K) (pi : K) (nc np : Nat) (xp : Nat → K) :
    cosSum cosF pi nc np xp (nc / 2) = (np : K) * cosF 0 := by
  unfold cosSum
  simp only [phase_dc, Finset.sum_const, Finset.card_range, nsmul_eq_mul]

theorem sinSum_dc {K : Type} [Field K] (sinF : K → K) (pi : K) (hs0 : sinF 0 = 0)
    (nc np : Nat) (xp : Nat → K) :
    sinSum sinF pi nc np xp (nc / 2) = 0 := by
  unfold sinSum
  simp only [phase_dc, hs0, Finset.sum_const_zero]

theorem sum_ePart {K : Type} [Field K] (cosF sinF : K → K) (pi : K) (C : Consts K)
    (x : Nat → K) (g : Globals K) :
    ∑ i in Finset.range C.PART_NUM, ePart C (uf1aExact cosF sinF pi) x g i
      = ∑ t in Finset.range C.NGRID,
          ((hermitianFill C g.ekBuf t).re
              * cosSum cosF pi C.NGRID C.PART_NUM (xpFill C x g.xpBuf) t
            - (hermitianFill C g.ekBuf t).im
              * sinSum sinF pi C.NGRID C.PART_NUM (xpFill C x g.xpBuf) t) := by
  have h1 : ∑ i in Finset.range C.PART_NUM, ePart C (uf1aExact cosF sinF pi) x g i
      = ∑ i in Finset.range C.PART_NUM, ∑ t in Finset.range C.NGRID,
          ((hermitianFill C g.ekBuf t).re
              * cosF (phase pi C.NGRID t (xpFill C x g.xpBuf i))
            - (hermitianFill C g.ekBuf t).im
              * sinF (phase pi C.NGRID t (xpFill C x g.xpBuf i))) := by
    apply Finset.sum_congr rfl
    intro i hi
    unfold ePart
    rw [uf1aExact_re _ _ _ _ _ _ _ _ _ _ (Finset.mem_range.mp hi)]
    apply Finset.sum_congr rfl
    intro t _
    rw [Int.cast_one, one_mul]
  rw [h1, Finset.sum_comm]
  apply Finset.sum_congr rfl
  intro t _
  unfold cosSum sinSum
  rw [Finset.sum_sub_distrib, Finset.mul_sum, Finset.mul_sum]

/-- The contribution of mode `j` to the total force vanishes when the filter is real there. -/
theorem ekVal_force_zero {K : Type} [Field K] (C : Consts K) (zcBuf sk rhok : Buf K)
    (j : Nat) (a b : K) (hr : rhok j = rhokVal C zcBuf sk j)
    (hz : zcBuf (C.NGRID / 2 + j) = ⟨a, -b⟩) (hsk : (sk j).im = 0) :
    (ekVal C rhok sk j).re * a - (ekVal C rhok sk j).im * b = 0 := by
  unfold ekVal phikVal
  simp only
  rw [hr]
  unfold rhokVal
  simp only
  rw [hz, hsk]
  simp only
  ring

theorem force_sum_core {K : Type} [Field K] (cosF sinF : K → K) (pi : K)
    (hc : ∀ a, cosF (-a) = cosF a) (hs : ∀ a, sinF (-a) = -sinF a) (hs0 : sinF 0 = 0)
    (C : Consts K) (hG : C.NGRID = 2 * (C.NGRID / 2)) (hG0 : 0 < C.NGRID)
    (xp : Nat → K) (zc rhok sk ek : Buf K)
    (hz : ∀ t, zc t = ⟨cosSum cosF pi C.NGRID C.PART_NUM xp t,
      -sinSum sinF pi C.NGRID C.PART_NUM xp t⟩)
    (hd : ∀ j, 1 ≤ j → j < C.NGRID / 2 → rhok j = rhokVal C zc sk j)
    (he : ∀ j, 1 ≤ j → j < C.NGRID / 2 → ek (C.NGRID / 2 + j) = ekVal C rhok sk j)
    (hsk : ∀ j, 1 ≤ j → j < C.NGRID / 2 → (sk j).im = 0) :
    ∑ t in Finset.range C.NGRID,
        ((hermitianFill C ek t).re * cosSum cosF pi C.NGRID C.PART_NUM xp t
          - (hermitianFill C ek t).im * sinSum sinF pi C.NGRID C.PART_NUM xp t)
      = (C.PART_NUM : K) * cosF 0 * (ek (C.NGRID / 2)).re := by
  have hH : 0 < C.NGRID / 2 := by omega
  rw [Finset.sum_eq_single (C.NGRID / 2)]
  · rw [hermitianFill_dc C ek hH, cosSum_dc, sinSum_dc sinF pi hs0]
    simp only [conj]
    ring
  · intro t ht hne
    have ht2 := Finset.mem_range.mp ht
    by_cases h0 : t = 0
    · rw [h0, hermitianFill_zero]
      simp only
      ring
    · by_cases hlt : t < C.NGRID / 2
      · obtain ⟨j, hj1, hj2, rfl⟩ : ∃ j, 1 ≤ j ∧ j < C.NGRID / 2 ∧ t = C.NGRID / 2 - j :=
          ⟨C.NGRID / 2 - t, by omega, by omega, by omega⟩
        rw [hermitianFill_lower C ek j hj1 hj2, he j hj1 hj2,
          cosSum_mirror cosF pi hc _ _ _ j hj2.le, sinSum_mirror sinF pi hs _ _ _ j hj2.le]
        simp only [conj]
        have hz0 := ekVal_force_zero C zc sk rhok j _ _ (hd j hj1 hj2) (hz _) (hsk j hj1 hj2)
        rw [← hz0]
        ring
      · obtain ⟨j, hj1, hj2, rfl⟩ : ∃ j, 1 ≤ j ∧ j < C.NGRID / 2 ∧ t = C.NGRID / 2 + j :=
          ⟨t - C.NGRID / 2, by omega, by omega, by omega⟩
        rw [hermitianFill_upper C ek _ (by omega), he j hj1 hj2]
        exact ekVal_force_zero C zc sk rhok j _ _ (hd j hj1 hj2) (hz _) (hsk j hj1 hj2)
  · intro hn
    exact absurd (Finset.mem_range.mpr (by omega)) hn

/-- The change of the total momentum in one kick (`deposit`, `fields`, `vHalfPush`) with exact
transforms, unit weights and a filter that is real on the modes `1 .. NGRID/2 - 1`: it is
proportional to the real part of the entry `ekBuf[NGRID/2]` that was in the buffer before the
kick. -/
theorem momentum_after_kick {K : Type} [Field K] (cosF sinF : K → K) (pi : K)
    (hc : ∀ a, cosF (-a) = cosF a) (hs : ∀ a, sinF (-a) = -sinF a) (hs0 : sinF 0 = 0)
    (C : Consts K) (hG : C.NGRID = 2 * (C.NGRID / 2)) (hG0 : 0 < C.NGRID)
    (x v : Nat → K) (rhok sk : Buf K) (forward : Int) (g : Globals K)
    (hsk : ∀ j, 1 ≤ j → j < C.NGRID / 2 → (sk j).im = 0)
    (hfp : ∀ i, i < C.PART_NUM → g.fpBuf (2 * i) = 1 ∧ g.fpBuf (2 * i + 1) = 0) :
    momentum C (depositFieldsKick C (uf1tExact cosF sinF pi) (uf1aExact cosF sinF pi)
        x v rhok sk forward g)
      = momentum C v + (if forward ≠ 0 then 1 else -1)
          * (C.PART_MASS * (C.DT / 2 * (C.PART_CHARGE / C.PART_MASS)))
          * ((C.PART_NUM : K) * cosF 0 * (g.ekBuf (C.NGRID / 2)).re) := by
  unfold depositFieldsKick
  simp only
  rw [momentum_vHalfPush, sum_ePart]
  have hxp : xpFill C x (fields C (deposit C (uf1tExact cosF sinF pi) x rhok sk g).1 sk
      (deposit C (uf1tExact cosF sinF pi) x rhok sk g).2).2.xpBuf = xpFill C x g.xpBuf :=
    xpFill_idem C x g.xpBuf
  rw [hxp]
  have hcore := force_sum_core cosF sinF pi hc hs hs0 C hG hG0 (xpFill C x g.xpBuf)
    (uf1tExact cosF sinF pi C.NGRID C.PART_NUM (xpFill C x g.xpBuf) g.fpBuf (-1) 5)
    (deposit C (uf1tExact cosF sinF pi) x rhok sk g).1 sk
    (fields C (deposit C (uf1tExact cosF sinF pi) x rhok sk g).1 sk
      (deposit C (uf1tExact cosF sinF pi) x rhok sk g).2).2.ekBuf
    (fun t => uf1tExact_unit cosF sinF pi _ _ _ _ 5 t hfp)
    (fun j hj1 hj2 => depositModes_apply C _ sk rhok j hj1 hj2)
    (fun j hj1 hj2 => fields_ek C _ sk _ j hj1 hj2)
    hsk
  rw [hcore]
  have hdc : (fields C (deposit C (uf1tExact cosF sinF pi) x rhok sk g).1 sk
      (deposit C (uf1tExact cosF sinF pi) x rhok sk g).2).2.ekBuf (C.NGRID / 2)
      = g.ekBuf (C.NGRID / 2) :=
    fieldsSolve_ek_other C _ sk _ _ (le_refl _)
  rw [hdc]

theorem unitWeights_loop {K : Type} [Field K] (n : Nat) (fp : Nat → K) (t : Nat) :
    loopFrom (fun m fp => Function.update (Function.update fp (2 * m) (1 : K)) (2 * m + 1) 0)
        0 n fp t
      = if t < 2 * n then (if t % 2 = 0 then 1 else 0) else fp t := by
  induction n generalizing t with
  | zero => rw [loopFrom, if_neg (by omega)]
  | succ n ih =>
    rw [loopFrom_succ_last]
    by_cases h1 : t = 2 * (0 + n) + 1
    · rw [h1, Function.update_same, if_pos (by omega), if_neg (by omega)]
    · rw [Function.update_noteq h1]
      by_cases h2 : t = 2 * (0 + n)
      · rw [h2, Function.update_same, if_pos (by omega), if_pos (by omega)]
      · rw [Function.update_noteq h2, ih]
        by_cases h3 : t < 2 * n
        · have h4 : t < 2 * (n + 1) := by omega
          simp only [if_pos h3, if_pos h4]
        · have h4 : ¬ t < 2 * (n + 1) := by omega
          simp only [if_neg h3, if_neg h4]

theorem unitWeights_apply {K : Type} [Field K] (C : Consts K) (fp : Nat → K) (i : Nat)
    (hi : i < C.PART_NUM) :
    unitWeights C fp (2 * i) = 1 ∧ unitWeights C fp (2 * i + 1) = 0 := by
  unfold unitWeights forLoop
  rw [unitWeights_loop, unitWeights_loop, if_pos (by omega), if_pos (by omega),
    if_pos (by omega), if_neg (by omega)]
  exact ⟨rfl, rfl⟩

theorem globalsAtStart_fpBuf {K : Type} [Field K] (C : Consts K) (ek : Buf K) :
    (globalsAtStart C ek).fpBuf = unitWeights C (fun _ => 0) := rfl

/-- With exact transforms, unit weights and a real filter, a kick conserves the total momentum
when the real part of the entry `ekBuf[NGRID/2]` left in the buffer is zero. -/
theorem kick_conserves_momentum_of_dc_zero (C : Consts ℝ) (hG : C.NGRID = 2 * (C.NGRID / 2))
    (hG0 : 0 < C.NGRID) (x v : Nat → ℝ) (rhok sk : Buf ℝ) (forward : Int) (g : Globals ℝ)
    (hsk : ∀ j, 1 ≤ j → j < C.NGRID / 2 → (sk j).im = 0)
    (hfp : ∀ i, i < C.PART_NUM → g.fpBuf (2 * i) = 1 ∧ g.fpBuf (2 * i + 1) = 0)
    (hdc : (g.ekBuf (C.NGRID / 2)).re = 0) :
    momentum C (depositFieldsKick C (uf1tExact Real.cos Real.sin Real.pi)
        (uf1aExact Real.cos Real.sin Real.pi) x v rhok sk forward g)
      = momentum C v := by
  rw [momentum_after_kick Real.cos Real.sin Real.pi Real.cos_neg Real.sin_neg Real.sin_zero
    C hG hG0 x v rhok sk forward g hsk hfp, hdc]
  ring

/-- C4 (code defect). At the configured constants, with exact transforms, unit weights, the
real filter `sk = 1`, all particles at rest at `x = 0` and the field-spectrum buffer holding
`1 + 0i` at index 32 (the entry of mode 0, which no function writes), one forward kick
(`deposit`, `fields`, `vHalfPush`) changes the total momentum from `0` to `-1/10`. -/
theorem kick_changes_momentum :
    momentum (configured Real.pi) (fun _ => 0) = 0
    ∧ momentum (configured Real.pi)
        (depositFieldsKick (configured Real.pi) (uf1tExact Real.cos Real.sin Real.pi)
          (uf1aExact Real.cos Real.sin Real.pi) (fun _ => 0) (fun _ => 0) zeroBuf oneBuf 1
          (globalsAtStart (configured Real.pi) (spikeBuf 32 ⟨1, 0⟩)))
      = -(1 / 10) := by
  have h0 : momentum (configured Real.pi) (fun _ => 0) = 0 := by
    rw [momentum_eq_sum]
    simp
  refine ⟨h0, ?_⟩
  have hG : (configured Real.pi).NGRID = 2 * ((configured Real.pi).NGRID / 2) := rfl
  have hG0 : 0 < (configured Real.pi).NGRID := Nat.succ_pos 63
  have hfp : ∀ i, i < (configured Real.pi).PART_NUM →
      (globalsAtStart (configured Real.pi) (spikeBuf 32 ⟨1, 0⟩)).fpBuf (2 * i) = 1
      ∧ (globalsAtStart (configured Real.pi) (spikeBuf 32 ⟨1, 0⟩)).fpBuf (2 * i + 1) = 0 := by
    intro i hi
    rw [globalsAtStart_fpBuf]
    exact unitWeights_apply (configured Real.pi) (fun _ => 0) i hi
  rw [momentum_after_kick Real.cos Real.sin Real.pi Real.cos_neg Real.sin_neg Real.sin_zero
    (configured Real.pi) hG hG0 (fun _ => 0) (fun _ => 0) zeroBuf oneBuf 1
    (globalsAtStart (configured Real.pi) (spikeBuf 32 ⟨1, 0⟩))
    (fun _ _ _ => rfl) hfp, h0]
  simp [configured, globalsAtStart, spikeBuf]
  norm_num

/-! ### The initialisers -/

theorem init2Stream_apply {K : Type} [Field K] (C : Consts K) (x : Nat → K) (i : Nat) :
    init2Stream C x i = if i < C.PART_NUM then (i : K) * C.XMAX / (C.PART_NUM : K) else x i :=
  forLoop_pointwise (fun i _ => (i : K) * C.XMAX / (C.PART_NUM : K)) C.PART_NUM x i

theorem initStanding_apply {K : Type} [Field K] (C : Consts K) (cosF : K → K) (x : Nat → K)
    (i : Nat) :
    initStanding C cosF x i = if i < C.PART_NUM then initStandingStep C cosF i else x i :=
  forLoop_pointwise (fun i _ => initStandingStep C cosF i) C.PART_NUM x i

theorem initStandingStep_configured (i : Nat) :
    initStandingStep (configured Real.pi) Real.cos i
      = (i : ℝ) * 16 / 10000
        + 6 / (5 * Real.pi) * Real.cos (Real.pi * ((i : ℝ) * 16 / 10000) / 4) := by
  have hpi := Real.pi_ne_zero
  unfold initStandingStep
  simp only [configured, WAVE_MODE, Nat.cast_ofNat]
  congr 1
  congr 1
  · field_simp
    ring
  · congr 1
    ring

theorem init2Stream_bounds {K : Type} [LinearOrderedField K] (C : Consts K) (x : Nat → K)
    (i : Nat) (hL : 0 < C.XMAX) (hi : i < C.PART_NUM) :
    0 ≤ init2Stream C x i ∧ init2Stream C x i < C.XMAX := by
  rw [init2Stream_apply, if_pos hi]
  have hN : (0 : K) < (C.PART_NUM : K) := by
    exact_mod_cast Nat.lt_of_le_of_lt (Nat.zero_le i) hi
  have hi2 : (i : K) < (C.PART_NUM : K) := by exact_mod_cast hi
  constructor
  · exact div_nonneg (mul_nonneg (Nat.cast_nonneg i) hL.le) hN.le
  · rw [div_lt_iff₀ hN]
    rw [mul_comm]
    exact mul_lt_mul_of_pos_left hi2 hL

/-- C9 (code defect). At the configured constants `initStanding` writes for the last particle,
`i = 9999 < PART_NUM`, a position above `XMAX = 16`, outside `[0, XMAX)`; `init2Stream` writes
for the same particle a position inside `[0, XMAX)`. -/
theorem initStanding_last_particle_outside :
    9999 < (configured Real.pi).PART_NUM
    ∧ (configured Real.pi).XMAX < initStanding (configured Real.pi) Real.cos (fun _ => 0) 9999
    ∧ (0 ≤ init2Stream (configured Real.pi) (fun _ => 0) 9999
      ∧ init2Stream (configured Real.pi) (fun _ => 0) 9999 < (configured Real.pi).XMAX) := by
  have hi : 9999 < (configured Real.pi).PART_NUM := Nat.lt_succ_self 9999
  have hX : (configured Real.pi).XMAX = 16 := rfl
  refine ⟨hi, ?_, init2Stream_bounds (configured Real.pi) (fun _ => 0) 9999
    (by rw [hX]; norm_num) hi⟩
  rw [initStanding_apply, if_pos hi, initStandingStep_configured, hX]
  have hpos := Real.pi_pos
  have h4 := Real.pi_le_four
  have harg : Real.pi * (((9999 : ℕ) : ℝ) * 16 / 10000) / 4
      = -(Real.pi / 2500) + ((2 : ℕ) : ℝ) * (2 * Real.pi) := by
    push_cast
    ring
  rw [harg, Real.cos_add_nat_mul_two_pi, Real.cos_neg]
  have hcos := Real.one_sub_sq_div_two_le_cos (x := Real.pi / 2500)
  have hd : (Real.pi / 2500) ^ 2 / 2 ≤ 1 / 100 := by
    have h1 : Real.pi / 2500 ≤ 4 / 2500 := by
      apply div_le_div_of_nonneg_right h4
      norm_num
    have h0 : 0 ≤ Real.pi / 2500 := by positivity
    nlinarith
  have hc : (99 : ℝ) / 100 ≤ Real.cos (Real.pi / 2500) := by linarith
  have hA : (3 : ℝ) / 10 ≤ 6 / (5 * Real.pi) := by
    rw [le_div_iff₀ (by positivity)]
    nlinarith
  have hprod : (3 : ℝ) / 10 * (99 / 100) ≤ 6 / (5 * Real.pi) * Real.cos (Real.pi / 2500) :=
    mul_le_mul hA hc (by norm_num) (by positivity)
  push_cast
  linarith

/-! ### Instances at concrete inputs -/

theorem xPush_periodic_witness :
    0 ≤ xPush (configured Real.pi) (fun _ => 15) (fun _ => 2000) 0
    ∧ xPush (configured Real.pi) (fun _ => 15) (fun _ => 2000) 0 < (configured Real.pi).XMAX :=
  xPush_periodic (configured Real.pi) (fun _ => 15) (fun _ => 2000) 0 (Nat.succ_pos 9999)
    (by norm_num) (by norm_num [configured]) (by norm_num [configured])

theorem vHalfPush_twice_same_field_witness :
    (vHalfPush (configured Real.pi) (uf1aExact Real.cos Real.sin Real.pi) (fun _ => 1)
        (vHalfPush (configured Real.pi) (uf1aExact Real.cos Real.sin Real.pi) (fun _ => 1)
          (fun _ => 3) 0 (globalsWith oneBuf)).1 1
        (vHalfPush (configured Real.pi) (uf1aExact Real.cos Real.sin Real.pi) (fun _ => 1)
          (fun _ => 3) 0 (globalsWith oneBuf)).2).1 0
      = (fun _ => (3 : ℝ)) 0 :=
  (vHalfPush_twice_same_field (configured Real.pi) (fun _ => 1) (fun _ => 3)
    (globalsWith oneBuf) 0 1 0 (Nat.succ_pos 9999)).2.2.2.2

theorem fields_potential_closed_form_witness :
    (fields (configured Real.pi) oneBuf oneBuf (globalsWith zeroBuf)).1
      = (configured Real.pi).XMAX
        * ((configured Real.pi).XMAX / ((configured Real.pi).NGRID : ℝ))
        * ∑ j in Finset.Ico 1 ((configured Real.pi).NGRID / 2),
            (oneBuf j).re * ((oneBuf j).re ^ 2 + (oneBuf j).im ^ 2)
              / ((configured Real.pi).EPS_0
                  * (2 * (configured Real.pi).M_PI * (j : ℝ) / (configured Real.pi).XMAX) ^ 2) :=
  (fields_potential_closed_form (configured Real.pi) oneBuf oneBuf (globalsWith zeroBuf)
    (by norm_num [configured]) (by norm_num [configured])).1

end Ftpic
